import Mathlib

/-!
Verification of the item-registry and authorization core of the
`aws-ecs-fastapi-template` repository.

The embedding follows the source files:
  * `src/app/api/routes.py` — the item registry (`items_db`, `get_item`,
    `create_item`, `update_item`, `delete_item`, `get_items`);
  * `src/app/core/auth.py` — the authorization guard (`get_api_key`);
  * `src/app/core/config.py` — the two settings the guard reads
    (`ENABLE_API_KEY_AUTH : bool`, `API_KEY : Optional[str]`).

Python floats carry the `price` field but no arithmetic is ever performed on
it; `price` is modelled as `Rat`, an inert payload. Machine integers do not
overflow in the source (ids are Python ints), so `Int` models `id`.
-/

deriving instance DecidableEq for Except

namespace ECSTemplate

/-- An HTTP error as raised by `HTTPException(status_code=..., detail=...)`,
with optional response headers. -/
structure HTTPError where
  status_code : Nat
  detail : String
  headers : List (String × String) := []
deriving DecidableEq, Repr

/-- `APIKeyError` from `src/app/core/auth.py`: 401, fixed detail, and the
`WWW-Authenticate: Bearer` header. -/
def apiKeyError : HTTPError :=
  { status_code := 401
    detail := "Invalid or missing API key"
    headers := [("WWW-Authenticate", "Bearer")] }

/-- The 404 error raised by `get_item`, `update_item` and `delete_item`. -/
def itemNotFound : HTTPError :=
  { status_code := 404, detail := "Item not found" }

/-- Request body `ItemCreate(name, description, price)` from `routes.py`. -/
structure ItemCreate where
  name : String
  description : String
  price : Rat
deriving DecidableEq, Repr

/-- The `Item(id, name, description, price)` model from `routes.py`. -/
structure Item where
  id : Int
  name : String
  description : String
  price : Rat
deriving DecidableEq, Repr

/-- `Item(id=new_id, **item.dict())`: build an `Item` from an id and the
`ItemCreate` fields. -/
def Item.ofFields (id : Int) (fields : ItemCreate) : Item :=
  { id := id
    name := fields.name
    description := fields.description
    price := fields.price }

/-- The in-memory store `items_db : List[Item]`. -/
abbrev ItemsDb := List Item

/-- Python truthiness of an `Optional[str]`: `None` and `""` are falsy. -/
def optStrTruthy : Option String → Bool
  | none => false
  | some s => !(s == "")

/-- `get_api_key` from `src/app/core/auth.py`: bypass when auth is disabled
or no API key is configured; otherwise require a presented bearer credential
equal to the configured key. `enableAuth` is `settings.ENABLE_API_KEY_AUTH`,
`apiKey` is `settings.API_KEY`, `credentials` the presented bearer token
(`None` when no `Authorization` header was sent). -/
def get_api_key (enableAuth : Bool) (apiKey : Option String)
    (credentials : Option String) : Except HTTPError String :=
  if !enableAuth || !optStrTruthy apiKey then
    Except.ok "bypass"
  else
    match credentials with
    | none => Except.error apiKeyError
    | some c =>
      if some c ≠ apiKey then Except.error apiKeyError
      else Except.ok c

/-- `get_items` from `routes.py`: returns the whole list. -/
def get_items (db : ItemsDb) : List Item := db

/-- `get_item` from `routes.py`: linear scan for the first item whose `id`
matches; 404 when none does. -/
def get_item (db : ItemsDb) (item_id : Int) : Except HTTPError Item :=
  match db with
  | [] => Except.error itemNotFound
  | item :: rest =>
    if item.id = item_id then Except.ok item
    else get_item rest item_id

/-- `create_item` from `routes.py`: `new_id = len(items_db) + 1`, append the
new item, return it. Returns the created item and the new store. -/
def create_item (db : ItemsDb) (fields : ItemCreate) : Item × ItemsDb :=
  let new_id : Int := (db.length : Int) + 1
  let new_item := Item.ofFields new_id fields
  (new_item, db ++ [new_item])

/-- `update_item` from `routes.py`: linear scan; the first item whose `id`
matches is replaced in place by `Item(id=item_id, **item_update.dict())`;
404 when none matches. Returns the updated item and the new store. -/
def update_item (db : ItemsDb) (item_id : Int) (item_update : ItemCreate) :
    Except HTTPError (Item × ItemsDb) :=
  match db with
  | [] => Except.error itemNotFound
  | item :: rest =>
    if item.id = item_id then
      let updated_item := Item.ofFields item_id item_update
      Except.ok (updated_item, updated_item :: rest)
    else
      match update_item rest item_id item_update with
      | Except.ok (u, rest2) => Except.ok (u, item :: rest2)
      | Except.error e => Except.error e

/-- `delete_item` from `routes.py`: linear scan; the first item whose `id`
matches is popped; 404 when none matches. Returns the confirmation message
and the new store. -/
def delete_item (db : ItemsDb) (item_id : Int) :
    Except HTTPError (String × ItemsDb) :=
  match db with
  | [] => Except.error itemNotFound
  | item :: rest =>
    if item.id = item_id then
      Except.ok (s!"Item {item_id} deleted successfully", rest)
    else
      match delete_item rest item_id with
      | Except.ok (msg, rest2) => Except.ok (msg, item :: rest2)
      | Except.error e => Except.error e

/-- A registry operation: one call to a mutating endpoint. -/
inductive Op where
  | create (fields : ItemCreate)
  | update (item_id : Int) (fields : ItemCreate)
  | delete (item_id : Int)
deriving DecidableEq, Repr

/-- Whether an operation is a delete. -/
def Op.isDelete : Op → Bool
  | .delete _ => true
  | _ => false

/-- Whether an operation is a create. -/
def Op.isCreate : Op → Bool
  | .create _ => true
  | _ => false

/-- The store after one endpoint call. A failing call raises an
`HTTPException`, which leaves `items_db` untouched. -/
def applyOp (db : ItemsDb) : Op → ItemsDb
  | .create f => (create_item db f).2
  | .update i f =>
    match update_item db i f with
    | Except.ok (_, db2) => db2
    | Except.error _ => db
  | .delete i =>
    match delete_item db i with
    | Except.ok (_, db2) => db2
    | Except.error _ => db

/-- The store after a sequence of endpoint calls. -/
def runOps (db : ItemsDb) (ops : List Op) : ItemsDb :=
  ops.foldl applyOp db

/-- A store is reachable when some sequence of endpoint calls produces it
from the empty initial store. -/
def Reachable (db : ItemsDb) : Prop :=
  ∃ ops : List Op, runOps [] ops = db

/-- A delete-free sequence of endpoint calls. -/
def DeleteFree (ops : List Op) : Prop :=
  ∀ op ∈ ops, op.isDelete = false

/-- A store is delete-free-reachable when some delete-free sequence of
endpoint calls produces it from the empty initial store. -/
def ReachableND (db : ItemsDb) : Prop :=
  ∃ ops : List Op, DeleteFree ops ∧ runOps [] ops = db

instance (ops : List Op) : Decidable (DeleteFree ops) :=
  decidable_of_iff (∀ op ∈ ops, op.isDelete = false) Iff.rfl

/-- The list `[start, start + 1, ..., start + n - 1]`. -/
def idsFrom (start : Int) : Nat → List Int
  | 0 => []
  | n + 1 => start :: idsFrom (start + 1) n

/-- The ids returned by the `create_item` calls of a sequence of endpoint
calls, in order. -/
def createResults : ItemsDb → List Op → List Int
  | _, [] => []
  | db, Op.create f :: rest =>
    (create_item db f).1.id :: createResults (create_item db f).2 rest
  | db, op :: rest => createResults (applyOp db op) rest

/-- Sample request body. -/
def sampleA : ItemCreate := { name := "Widget", description := "A widget", price := 1 }

/-- Sample request body. -/
def sampleB : ItemCreate := { name := "Widget2", description := "Updated", price := 2 }

/-- Sample request body. -/
def sampleC : ItemCreate := { name := "Widget3", description := "Third", price := 3 }

/-- A history whose final create reuses the id 2 of a surviving item:
create, create, delete 1, create. -/
def dupOps : List Op :=
  [Op.create sampleA, Op.create sampleB, Op.delete 1, Op.create sampleC]

/-- The store reached by `dupOps`: two items both carrying id 2. -/
def dupDb : ItemsDb := runOps [] dupOps

/-- A delete-free history: create, update, create. -/
def sampleOps : List Op :=
  [Op.create sampleA, Op.update 1 sampleB, Op.create sampleB]

/-! ### Characterization of the three linear scans -/

theorem get_item_first_match (pre : ItemsDb) (x : Item) (post : ItemsDb) (i : Int)
    (hpre : ∀ y ∈ pre, y.id ≠ i) (hx : x.id = i) :
    get_item (pre ++ x :: post) i = Except.ok x := by
  induction pre with
  | nil => simp [get_item, hx]
  | cons a pre ih =>
    have ha : a.id ≠ i := hpre a (List.mem_cons_self a pre)
    rw [List.cons_append, get_item, if_neg ha]
    exact ih fun y hy => hpre y (List.mem_cons_of_mem a hy)

theorem get_item_error_iff (db : ItemsDb) (i : Int) :
    get_item db i = Except.error itemNotFound ↔ ∀ y ∈ db, y.id ≠ i := by
  induction db with
  | nil => simp [get_item]
  | cons a rest ih =>
    by_cases ha : a.id = i
    · rw [get_item, if_pos ha]
      simp only [List.mem_cons]
      constructor
      · intro h; exact absurd h (by simp)
      · intro h; exact absurd ha (h a (Or.inl rfl))
    · rw [get_item, if_neg ha]
      simp only [ih, List.mem_cons]
      constructor
      · rintro h y (rfl | hy)
        · exact ha
        · exact h y hy
      · intro h y hy; exact h y (Or.inr hy)

theorem update_item_first_match (pre : ItemsDb) (x : Item) (post : ItemsDb)
    (i : Int) (f : ItemCreate) (hpre : ∀ y ∈ pre, y.id ≠ i) (hx : x.id = i) :
    update_item (pre ++ x :: post) i f =
      Except.ok (Item.ofFields i f, pre ++ Item.ofFields i f :: post) := by
  induction pre with
  | nil => simp [update_item, hx]
  | cons a pre ih =>
    have ha : a.id ≠ i := hpre a (List.mem_cons_self a pre)
    rw [List.cons_append, update_item, if_neg ha,
      ih fun y hy => hpre y (List.mem_cons_of_mem a hy)]
    rfl

theorem update_item_error_eq {db : ItemsDb} {i : Int} {f : ItemCreate}
    {e : HTTPError} (h : update_item db i f = Except.error e) :
    e = itemNotFound := by
  induction db with
  | nil =>
    rw [update_item] at h
    exact (Except.error.inj h).symm
  | cons a rest ih =>
    by_cases ha : a.id = i
    · rw [update_item, if_pos ha] at h; exact absurd h (by simp)
    · rw [update_item, if_neg ha] at h
      cases hrec : update_item rest i f with
      | ok p => rw [hrec] at h; exact absurd h (by simp)
      | error e2 =>
        rw [hrec] at h
        cases h
        exact ih hrec

theorem update_item_error_iff (db : ItemsDb) (i : Int) (f : ItemCreate) :
    update_item db i f = Except.error itemNotFound ↔ ∀ y ∈ db, y.id ≠ i := by
  induction db with
  | nil => simp [update_item]
  | cons a rest ih =>
    by_cases ha : a.id = i
    · rw [update_item, if_pos ha]
      simp only [List.mem_cons]
      constructor
      · intro h; exact absurd h (by simp)
      · intro h; exact absurd ha (h a (Or.inl rfl))
    · rw [update_item, if_neg ha]
      cases hrec : update_item rest i f with
      | ok p =>
        simp only [List.mem_cons]
        constructor
        · intro h; exact absurd h (by simp)
        · intro h
          exact absurd (ih.mpr fun y hy => h y (Or.inr hy)) (by rw [hrec]; simp)
      | error e =>
        have he : e = itemNotFound := update_item_error_eq hrec
        subst he
        have hrest : ∀ y ∈ rest, y.id ≠ i := ih.mp hrec
        constructor
        · intro _ y hy
          rcases List.mem_cons.mp hy with rfl | hy'
          · exact ha
          · exact hrest y hy'
        · intro _; rfl

theorem update_item_ok_shape {db : ItemsDb} {i : Int} {f : ItemCreate}
    {u : Item} {db2 : ItemsDb} (h : update_item db i f = Except.ok (u, db2)) :
    u = Item.ofFields i f ∧
      ∃ pre x post, db = pre ++ x :: post ∧ (∀ y ∈ pre, y.id ≠ i) ∧ x.id = i ∧
        db2 = pre ++ u :: post := by
  induction db generalizing u db2 with
  | nil => exact absurd h (by simp [update_item])
  | cons a rest ih =>
    by_cases ha : a.id = i
    · rw [update_item, if_pos ha] at h
      obtain ⟨hu, hdb⟩ := Prod.mk.injEq .. ▸ Except.ok.inj h
      exact ⟨hu.symm, [], a, rest, rfl, by simp, ha, by rw [← hdb, hu]; rfl⟩
    · rw [update_item, if_neg ha] at h
      cases hrec : update_item rest i f with
      | error e => rw [hrec] at h; exact absurd h (by simp)
      | ok p =>
        obtain ⟨v, rest2⟩ := p
        rw [hrec] at h
        obtain ⟨hv, hdb⟩ := Prod.mk.injEq .. ▸ Except.ok.inj h
        subst hv
        obtain ⟨hu, pre, x, post, hsplit, hpre, hx, hdb2⟩ := ih hrec
        refine ⟨hu, a :: pre, x, post, by rw [hsplit]; rfl, ?_, hx, ?_⟩
        · intro y hy
          rcases List.mem_cons.mp hy with rfl | hy'
          · exact ha
          · exact hpre y hy'
        · rw [← hdb, hdb2]; rfl

theorem delete_item_first_match (pre : ItemsDb) (x : Item) (post : ItemsDb)
    (i : Int) (hpre : ∀ y ∈ pre, y.id ≠ i) (hx : x.id = i) :
    delete_item (pre ++ x :: post) i =
      Except.ok (s!"Item {i} deleted successfully", pre ++ post) := by
  induction pre with
  | nil => simp [delete_item, hx]
  | cons a pre ih =>
    have ha : a.id ≠ i := hpre a (List.mem_cons_self a pre)
    rw [List.cons_append, delete_item, if_neg ha,
      ih fun y hy => hpre y (List.mem_cons_of_mem a hy)]
    rfl

theorem delete_item_error_eq {db : ItemsDb} {i : Int} {e : HTTPError}
    (h : delete_item db i = Except.error e) : e = itemNotFound := by
  induction db with
  | nil =>
    rw [delete_item] at h
    exact (Except.error.inj h).symm
  | cons a rest ih =>
    by_cases ha : a.id = i
    · rw [delete_item, if_pos ha] at h; exact absurd h (by simp)
    · rw [delete_item, if_neg ha] at h
      cases hrec : delete_item rest i with
      | ok p => rw [hrec] at h; exact absurd h (by simp)
      | error e2 =>
        rw [hrec] at h
        cases h
        exact ih hrec

theorem delete_item_error_iff (db : ItemsDb) (i : Int) :
    delete_item db i = Except.error itemNotFound ↔ ∀ y ∈ db, y.id ≠ i := by
  induction db with
  | nil => simp [delete_item]
  | cons a rest ih =>
    by_cases ha : a.id = i
    · rw [delete_item, if_pos ha]
      simp only [List.mem_cons]
      constructor
      · intro h; exact absurd h (by simp)
      · intro h; exact absurd ha (h a (Or.inl rfl))
    · rw [delete_item, if_neg ha]
      cases hrec : delete_item rest i with
      | ok p =>
        simp only [List.mem_cons]
        constructor
        · intro h; exact absurd h (by simp)
        · intro h
          exact absurd (ih.mpr fun y hy => h y (Or.inr hy)) (by rw [hrec]; simp)
      | error e =>
        have he : e = itemNotFound := delete_item_error_eq hrec
        subst he
        have hrest : ∀ y ∈ rest, y.id ≠ i := ih.mp hrec
        constructor
        · intro _ y hy
          rcases List.mem_cons.mp hy with rfl | hy'
          · exact ha
          · exact hrest y hy'
        · intro _; rfl

theorem delete_item_ok_shape {db : ItemsDb} {i : Int} {msg : String}
    {db2 : ItemsDb} (h : delete_item db i = Except.ok (msg, db2)) :
    msg = s!"Item {i} deleted successfully" ∧
      ∃ pre x post, db = pre ++ x :: post ∧ (∀ y ∈ pre, y.id ≠ i) ∧ x.id = i ∧
        db2 = pre ++ post := by
  induction db generalizing msg db2 with
  | nil => exact absurd h (by simp [delete_item])
  | cons a rest ih =>
    by_cases ha : a.id = i
    · rw [delete_item, if_pos ha] at h
      obtain ⟨hm, hdb⟩ := Prod.mk.injEq .. ▸ Except.ok.inj h
      exact ⟨hm.symm, [], a, rest, rfl, by simp, ha, hdb.symm⟩
    · rw [delete_item, if_neg ha] at h
      cases hrec : delete_item rest i with
      | error e => rw [hrec] at h; exact absurd h (by simp)
      | ok p =>
        obtain ⟨m, rest2⟩ := p
        rw [hrec] at h
        obtain ⟨hm, hdb⟩ := Prod.mk.injEq .. ▸ Except.ok.inj h
        subst hm
        obtain ⟨hmsg, pre, x, post, hsplit, hpre, hx, hdb2⟩ := ih hrec
        refine ⟨hmsg, a :: pre, x, post, by rw [hsplit]; rfl, ?_, hx, ?_⟩
        · intro y hy
          rcases List.mem_cons.mp hy with rfl | hy'
          · exact ha
          · exact hpre y hy'
        · rw [← hdb, hdb2]; rfl

theorem exists_first_match {db : ItemsDb} {i : Int} (h : ∃ x ∈ db, x.id = i) :
    ∃ pre x post, db = pre ++ x :: post ∧ (∀ y ∈ pre, y.id ≠ i) ∧ x.id = i := by
  induction db with
  | nil => simp at h
  | cons a rest ih =>
    by_cases ha : a.id = i
    · exact ⟨[], a, rest, rfl, by simp, ha⟩
    · obtain ⟨x, hx, hxi⟩ := h
      rcases List.mem_cons.mp hx with rfl | hx'
      · exact absurd hxi ha
      · obtain ⟨pre, x', post, hs, hp, hxi'⟩ := ih ⟨x, hx', hxi⟩
        refine ⟨a :: pre, x', post, by rw [hs]; rfl, ?_, hxi'⟩
        intro y hy
        rcases List.mem_cons.mp hy with rfl | hy'
        · exact ha
        · exact hp y hy'

theorem set_at_first_match (pre : ItemsDb) (x u : Item) (post : ItemsDb) :
    (pre ++ x :: post).set pre.length u = pre ++ u :: post := by
  induction pre with
  | nil => rfl
  | cons a pre ih =>
    show a :: (pre ++ x :: post).set pre.length u = a :: (pre ++ u :: post)
    rw [ih]

/-! ### Consecutive ids -/

theorem idsFrom_length (start : Int) (n : Nat) : (idsFrom start n).length = n := by
  induction n generalizing start with
  | zero => rfl
  | succ n ih => simp [idsFrom, ih]

theorem idsFrom_snoc (start : Int) (n : Nat) :
    idsFrom start (n + 1) = idsFrom start n ++ [start + n] := by
  induction n generalizing start with
  | zero => simp [idsFrom]
  | succ n ih =>
    rw [idsFrom, ih, idsFrom]
    have : start + 1 + (n : Int) = start + ((n : Nat) + 1 : Nat) := by push_cast; ring
    rw [this]
    rfl

theorem idsFrom_get (n : Nat) (start : Int) (k : Nat)
    (h : k < (idsFrom start n).length) :
    (idsFrom start n).get ⟨k, h⟩ = start + k := by
  induction n generalizing start k with
  | zero => exact absurd h (by simp [idsFrom])
  | succ n ih =>
    cases k with
    | zero => simp [idsFrom]
    | succ k =>
      have h2 : k < (idsFrom (start + 1) n).length := by
        rw [idsFrom_length]
        rw [idsFrom_length] at h
        omega
      have : (idsFrom start (n + 1)).get ⟨k + 1, h⟩ =
          (idsFrom (start + 1) n).get ⟨k, h2⟩ := rfl
      rw [this, ih]
      push_cast
      ring

theorem idsFrom_mem_le {n : Nat} {start y : Int} (h : y ∈ idsFrom start n) :
    start ≤ y := by
  induction n generalizing start with
  | zero => simp [idsFrom] at h
  | succ n ih =>
    rw [idsFrom] at h
    rcases List.mem_cons.mp h with rfl | h'
    · exact le_refl y
    · have := ih h'
      omega

theorem idsFrom_pairwise (start : Int) (n : Nat) :
    (idsFrom start n).Pairwise (· < ·) := by
  induction n generalizing start with
  | zero => simp [idsFrom]
  | succ n ih =>
    rw [idsFrom]
    refine List.Pairwise.cons ?_ (ih (start + 1))
    intro y hy
    have := idsFrom_mem_le hy
    omega

/-! ### The positional-id invariant of delete-free histories -/

theorem create_positional {db : ItemsDb} (f : ItemCreate)
    (h : db.map Item.id = idsFrom 1 db.length) :
    ((create_item db f).2).map Item.id = idsFrom 1 ((create_item db f).2).length := by
  have hlen : ((create_item db f).2).length = db.length + 1 := by
    simp [create_item]
  rw [hlen, idsFrom_snoc]
  show (db ++ [Item.ofFields ((db.length : Int) + 1) f]).map Item.id = _
  rw [List.map_append, h]
  congr 1
  show [(db.length : Int) + 1] = [1 + (db.length : Int)]
  rw [Int.add_comm]

theorem update_preserves_map_id {db : ItemsDb} {i : Int} {f : ItemCreate}
    {u : Item} {db2 : ItemsDb} (h : update_item db i f = Except.ok (u, db2)) :
    db2.map Item.id = db.map Item.id := by
  obtain ⟨hu, pre, x, post, rfl, hpre, hx, rfl⟩ := update_item_ok_shape h
  subst hu
  simp [List.map_append, Item.ofFields, hx]

theorem applyOp_update_map_id (db : ItemsDb) (i : Int) (f : ItemCreate) :
    (applyOp db (Op.update i f)).map Item.id = db.map Item.id := by
  cases h : update_item db i f with
  | ok p =>
    obtain ⟨u, db2⟩ := p
    simp only [applyOp, h]
    exact update_preserves_map_id h
  | error e => simp [applyOp, h]

theorem applyOp_update_length (db : ItemsDb) (i : Int) (f : ItemCreate) :
    (applyOp db (Op.update i f)).length = db.length := by
  have := congrArg List.length (applyOp_update_map_id db i f)
  simpa using this

theorem runOps_positional {ops : List Op} (hops : DeleteFree ops) :
    ∀ db : ItemsDb, db.map Item.id = idsFrom 1 db.length →
      (runOps db ops).map Item.id = idsFrom 1 (runOps db ops).length := by
  induction ops with
  | nil => exact fun db h => h
  | cons op rest ih =>
    intro db h
    have hop : op.isDelete = false := hops op (List.mem_cons_self op rest)
    have hrest : DeleteFree rest := fun o ho => hops o (List.mem_cons_of_mem op ho)
    have hstep : runOps db (op :: rest) = runOps (applyOp db op) rest := rfl
    rw [hstep]
    cases op with
    | create f => exact ih hrest _ (create_positional f h)
    | update i f =>
      refine ih hrest _ ?_
      rw [applyOp_update_map_id, applyOp_update_length, h]
    | delete i => simp [Op.isDelete] at hop

theorem reachableND_positional {db : ItemsDb} (h : ReachableND db) :
    db.map Item.id = idsFrom 1 db.length := by
  obtain ⟨ops, hops, rfl⟩ := h
  exact runOps_positional hops [] rfl

theorem positional_pairwise_ne {db : ItemsDb}
    (h : db.map Item.id = idsFrom 1 db.length) :
    db.Pairwise (fun a b => a.id ≠ b.id) := by
  have hp : (db.map Item.id).Pairwise (· < ·) := by
    rw [h]; exact idsFrom_pairwise 1 db.length
  have hp2 : (db.map Item.id).Pairwise (· ≠ ·) := hp.imp ne_of_lt
  exact List.pairwise_map.mp hp2

theorem pairwise_ne_countP_le {db : ItemsDb}
    (h : db.Pairwise (fun a b => a.id ≠ b.id)) (i : Int) :
    db.countP (fun x => x.id == i) ≤ 1 := by
  induction db with
  | nil => simp
  | cons a rest ih =>
    obtain ⟨ha, hrest⟩ := List.pairwise_cons.mp h
    by_cases hai : a.id = i
    · have h0 : rest.countP (fun x => x.id == i) = 0 := by
        rw [List.countP_eq_zero]
        intro y hy
        simp only [beq_iff_eq]
        intro hyi
        exact ha y hy (hai.trans hyi.symm)
      simp [List.countP_cons, h0, hai]
    · simpa [List.countP_cons, hai] using ih hrest

/-! ### The trace of ids returned by create calls -/

theorem createResults_eq {ops : List Op} (hops : DeleteFree ops) :
    ∀ db : ItemsDb,
      createResults db ops =
        idsFrom ((db.length : Int) + 1) (ops.countP Op.isCreate) := by
  induction ops with
  | nil => intro db; simp [createResults, idsFrom]
  | cons op rest ih =>
    intro db
    have hrest : DeleteFree rest := fun o ho => hops o (List.mem_cons_of_mem op ho)
    cases op with
    | create f =>
      show (create_item db f).1.id :: createResults (create_item db f).2 rest = _
      rw [ih hrest]
      have hlen : ((create_item db f).2).length = db.length + 1 := by
        simp [create_item]
      rw [hlen]
      have hcount : (Op.create f :: rest).countP Op.isCreate =
          rest.countP Op.isCreate + 1 := by
        simp [List.countP_cons, Op.isCreate]
      rw [hcount, idsFrom]
      have hcast : ((db.length + 1 : Nat) : Int) + 1 = (db.length : Int) + 1 + 1 := by
        push_cast; ring
      rw [hcast]
      rfl
    | update i f =>
      show createResults (applyOp db (Op.update i f)) rest = _
      rw [ih hrest, applyOp_update_length]
      have hcount : (Op.update i f :: rest).countP Op.isCreate =
          rest.countP Op.isCreate := by
        simp [List.countP_cons, Op.isCreate]
      rw [hcount]
    | delete i =>
      exact absurd (hops _ (List.mem_cons_self _ rest)) (by simp [Op.isDelete])

/-- Splitting a store around its unique id match. -/
theorem unique_match_split {db : ItemsDb} {i : Int}
    (h : db.countP (fun x => x.id == i) = 1) :
    ∃ pre x post, db = pre ++ x :: post ∧ (∀ y ∈ pre, y.id ≠ i) ∧ x.id = i ∧
      ∀ y ∈ post, y.id ≠ i := by
  have hex : ∃ x ∈ db, x.id = i := by
    by_contra hne
    push_neg at hne
    have h0 : db.countP (fun x => x.id == i) = 0 :=
      List.countP_eq_zero.mpr fun a ha => by simp [hne a ha]
    rw [h0] at h
    exact absurd h (by simp)
  obtain ⟨pre, x, post, rfl, hpre, hx⟩ := exists_first_match hex
  refine ⟨pre, x, post, rfl, hpre, hx, ?_⟩
  intro y hy hyi
  have h0 : pre.countP (fun z => z.id == i) = 0 :=
    List.countP_eq_zero.mpr fun a ha => by simp [hpre a ha]
  rw [List.countP_append, h0, List.countP_cons] at h
  simp only [hx, beq_self_eq_true, if_true, Nat.zero_add] at h
  have hpost0 : post.countP (fun z => z.id == i) = 0 := by omega
  have := List.countP_eq_zero.mp hpost0 y hy
  simp [hyi] at this

/-! ### The claims -/

/-- Claim C1, as stated, is false: the registry state reached by
create, create, delete 1, create holds two items that both carry id 2,
so a reachable state can contain two items with the same id (the id of a
surviving item is reused by a later create). -/
theorem C1_counterexample :
    ¬ (∀ db : ItemsDb, Reachable db →
        ∀ i : Int, db.countP (fun x => x.id == i) ≤ 1) := by
  intro h
  have h2 := h dupDb ⟨dupOps, rfl⟩ 2
  exact absurd h2 (by decide)

/-- Claim C1 (amended): for every registry state reachable by `create_item`
and `update_item` operations only (no deletes), at most one item with any
given id exists; once a delete has occurred, a later create can reuse the id
of an existing item (see the counterexample). -/
theorem C1_unique_ids_no_delete (db : ItemsDb) (h : ReachableND db) (i : Int) :
    db.countP (fun x => x.id == i) ≤ 1 :=
  pairwise_ne_countP_le (positional_pairwise_ne (reachableND_positional h)) i

/-- Witness for C1: a concrete delete-free state. -/
theorem C1_witness :
    (runOps [] [Op.create sampleA, Op.create sampleB]).countP
      (fun x => x.id == 2) ≤ 1 :=
  C1_unique_ids_no_delete (runOps [] [Op.create sampleA, Op.create sampleB])
    ⟨[Op.create sampleA, Op.create sampleB], by decide, rfl⟩ 2

/-- Claim C2: `get_api_key` succeeds with the presented credential exactly
when it equals the configured secret, fails with the 401 `apiKeyError` for
every other credential (missing included), and succeeds unconditionally with
the sentinel "bypass" token when auth is disabled or no secret (or the empty
secret) is configured. -/
theorem C2_authorize (enableAuth : Bool) (apiKey credentials : Option String) :
    ((enableAuth = false ∨ apiKey = none ∨ apiKey = some "") →
      get_api_key enableAuth apiKey credentials = Except.ok "bypass") ∧
    ∀ key : String, enableAuth = true → apiKey = some key → key ≠ "" →
      ((credentials = some key →
          get_api_key enableAuth apiKey credentials = Except.ok key) ∧
       (credentials ≠ some key →
          get_api_key enableAuth apiKey credentials = Except.error apiKeyError)) := by
  constructor
  · intro hby
    rcases hby with rfl | rfl | rfl
    · simp [get_api_key]
    · simp [get_api_key, optStrTruthy]
    · simp [get_api_key, optStrTruthy]
  · intro key henable hkeyeq hkey
    subst henable
    subst hkeyeq
    have htruthy : optStrTruthy (some key) = true := by
      simp [optStrTruthy, hkey]
    constructor
    · rintro rfl
      simp [get_api_key, htruthy]
    · intro hne
      cases credentials with
      | none => simp [get_api_key, htruthy]
      | some c =>
        have hcne : some c ≠ some key := hne
        simp [get_api_key, htruthy, hcne]

/-- Witness for C2: matching, missing, and bypass cases at concrete inputs. -/
theorem C2_witness :
    get_api_key true (some "secret") (some "secret") = Except.ok "secret" ∧
    get_api_key true (some "secret") none = Except.error apiKeyError ∧
    get_api_key true (some "secret") (some "wrong") = Except.error apiKeyError ∧
    get_api_key false (some "secret") (some "wrong") = Except.ok "bypass" :=
  ⟨((C2_authorize true (some "secret") (some "secret")).2 "secret" rfl rfl
      (by decide)).1 rfl,
   ((C2_authorize true (some "secret") none).2 "secret" rfl rfl
      (by decide)).2 (by decide),
   ((C2_authorize true (some "secret") (some "wrong")).2 "secret" rfl rfl
      (by decide)).2 (by decide),
   (C2_authorize false (some "secret") (some "wrong")).1 (Or.inl rfl)⟩

/-- Two equal lists agree at every index. -/
theorem get_eq_of_list_eq {l l2 : List Int} (h : l = l2) (k : Nat)
    (hk : k < l.length) (hk2 : k < l2.length) :
    l.get ⟨k, hk⟩ = l2.get ⟨k, hk2⟩ := by
  subst h
  rfl

/-- Claim C3: in any delete-free history, the ids handed out by the
`create_item` calls (read off by `createResults`) are `1, 2, 3, ...`: the
k-th item ever created receives id k (1-based), and the returned ids are
strictly increasing. -/
theorem C3_create_ids (ops : List Op) (h : DeleteFree ops) :
    createResults [] ops = idsFrom 1 (ops.countP Op.isCreate) ∧
    (∀ k (hk : k < (createResults [] ops).length),
      (createResults [] ops).get ⟨k, hk⟩ = (k : Int) + 1) ∧
    (createResults [] ops).Pairwise (· < ·) := by
  have heq := createResults_eq h []
  simp only [List.length_nil, Nat.cast_zero, zero_add] at heq
  refine ⟨heq, ?_, ?_⟩
  · intro k hk
    have hk2 : k < (idsFrom 1 (ops.countP Op.isCreate)).length := by
      rw [← heq]; exact hk
    rw [get_eq_of_list_eq heq k hk hk2, idsFrom_get]
    omega
  · rw [heq]
    exact idsFrom_pairwise 1 (ops.countP Op.isCreate)

/-- Witness for C3: the delete-free history create, update, create yields
the id trace `[1, 2]`. -/
theorem C3_witness :
    createResults [] sampleOps = idsFrom 1 2 ∧
    (createResults [] sampleOps).get ⟨0, by decide⟩ = (0 : Int) + 1 ∧
    (createResults [] sampleOps).Pairwise (· < ·) := by
  have h := C3_create_ids sampleOps (by decide)
  exact ⟨h.1, h.2.1 0 (by decide), h.2.2⟩

/-- Claim C4, as stated, is false: from the reachable state obtained by
create, create, delete 1 (one surviving item with id 2), a further
`create_item` also assigns id 2, and `get_item 2` then returns the first
match — the old item, not the item just created. -/
theorem C4_counterexample :
    ¬ (∀ db : ItemsDb, Reachable db → ∀ f : ItemCreate,
        get_item (create_item db f).2 (create_item db f).1.id =
          Except.ok (create_item db f).1) := by
  intro h
  have h2 := h (runOps [] [Op.create sampleA, Op.create sampleB, Op.delete 1])
    ⟨[Op.create sampleA, Op.create sampleB, Op.delete 1], rfl⟩ sampleC
  exact absurd h2 (by decide)

/-- Claim C4 (amended): for every reachable registry state in which no item
already carries the id the next create will assign (`len + 1`) — in
particular every state reachable without deletes — `get_item` after
`create_item` returns exactly the item the create returned. -/
theorem C4_create_get (db : ItemsDb) (_hdb : Reachable db) (f : ItemCreate)
    (hfresh : ∀ x ∈ db, x.id ≠ (db.length : Int) + 1) :
    get_item (create_item db f).2 (create_item db f).1.id =
      Except.ok (create_item db f).1 := by
  have hsplit : (create_item db f).2 = db ++ (create_item db f).1 :: [] := rfl
  rw [hsplit]
  exact get_item_first_match db (create_item db f).1 [] (create_item db f).1.id
    hfresh rfl

/-- Witness for C4: creating in the one-item state `[id 1]`. -/
theorem C4_witness :
    get_item (create_item (runOps [] [Op.create sampleA]) sampleB).2
        (create_item (runOps [] [Op.create sampleA]) sampleB).1.id =
      Except.ok (create_item (runOps [] [Op.create sampleA]) sampleB).1 :=
  C4_create_get (runOps [] [Op.create sampleA]) ⟨[Op.create sampleA], rfl⟩
    sampleB (by decide)

/-- Claim C5: when the registry holds an item with id `i`, `update_item`
succeeds, replaces the first match in place at the same position (the result
is `db.set k u` for the match position `k`), returns an item keeping id `i`
with the supplied name, description and price, and a subsequent `get_item i`
returns exactly that updated item. -/
theorem C5_update_get (db : ItemsDb) (i : Int) (f : ItemCreate)
    (h : ∃ x ∈ db, x.id = i) :
    ∃ u db2, update_item db i f = Except.ok (u, db2) ∧
      u.id = i ∧ u.name = f.name ∧ u.description = f.description ∧
      u.price = f.price ∧
      (∃ k, k < db.length ∧ db2 = db.set k u) ∧
      get_item db2 i = Except.ok u := by
  obtain ⟨pre, x, post, rfl, hpre, hx⟩ := exists_first_match h
  refine ⟨Item.ofFields i f, pre ++ Item.ofFields i f :: post,
    update_item_first_match pre x post i f hpre hx, rfl, rfl, rfl, rfl,
    ⟨pre.length, ?_, ?_⟩, ?_⟩
  · simp
  · rw [set_at_first_match]
  · exact get_item_first_match pre (Item.ofFields i f) post i hpre rfl

/-- Witness for C5: updating the one-item store `[id 1]`. -/
theorem C5_witness :
    ∃ u db2,
      update_item [Item.ofFields 1 sampleA] 1 sampleB = Except.ok (u, db2) ∧
      u.id = 1 ∧ u.name = sampleB.name ∧ u.description = sampleB.description ∧
      u.price = sampleB.price ∧
      (∃ k, k < List.length [Item.ofFields 1 sampleA] ∧
        db2 = [Item.ofFields 1 sampleA].set k u) ∧
      get_item db2 1 = Except.ok u :=
  C5_update_get [Item.ofFields 1 sampleA] 1 sampleB
    ⟨Item.ofFields 1 sampleA, by decide, by decide⟩

/-- Claim C6, as stated, is false: in the reachable state `dupDb`, where two
items carry id 2, `delete_item 2` succeeds and shrinks the store by one, but
the subsequent `get_item 2` still succeeds (it finds the second item with
id 2) instead of failing with 404. -/
theorem C6_counterexample :
    ¬ (∀ db : ItemsDb, Reachable db → ∀ i : Int, (∃ x ∈ db, x.id = i) →
        ∃ msg db2, delete_item db i = Except.ok (msg, db2) ∧
          db2.length + 1 = db.length ∧
          get_item db2 i = Except.error itemNotFound) := by
  intro h
  obtain ⟨msg, db2, hdel, hlen, hget⟩ :=
    h dupDb ⟨dupOps, rfl⟩ 2 ⟨Item.ofFields 2 sampleB, by decide, by decide⟩
  have hdel2 : delete_item dupDb 2 =
      Except.ok ("Item 2 deleted successfully", [Item.ofFields 2 sampleC]) := by
    decide
  rw [hdel2] at hdel
  obtain ⟨hm, hd⟩ := Prod.mk.injEq .. ▸ Except.ok.inj hdel
  subst hd
  exact absurd hget (by decide)

/-- Claim C6 (amended): for every registry state in which exactly one item
carries id `i`, `delete_item i` succeeds, the length drops by exactly one,
and a subsequent `get_item i` fails with the 404 `itemNotFound`. -/
theorem C6_delete_unique (db : ItemsDb) (_hdb : Reachable db) (i : Int)
    (h : db.countP (fun x => x.id == i) = 1) :
    ∃ msg db2, delete_item db i = Except.ok (msg, db2) ∧
      db2.length + 1 = db.length ∧
      get_item db2 i = Except.error itemNotFound := by
  obtain ⟨pre, x, post, rfl, hpre, hx, hpost⟩ := unique_match_split h
  refine ⟨_, pre ++ post, delete_item_first_match pre x post i hpre hx, ?_, ?_⟩
  · simp [List.length_append]
    omega
  · rw [get_item_error_iff]
    intro y hy
    rcases List.mem_append.mp hy with hy2 | hy2
    · exact hpre y hy2
    · exact hpost y hy2

/-- Witness for C6: deleting from the one-item store `[id 1]`. -/
theorem C6_witness :
    ∃ msg db2,
      delete_item [Item.ofFields 1 sampleA] 1 = Except.ok (msg, db2) ∧
      db2.length + 1 = List.length [Item.ofFields 1 sampleA] ∧
      get_item db2 1 = Except.error itemNotFound :=
  C6_delete_unique [Item.ofFields 1 sampleA] ⟨[Op.create sampleA], by decide⟩ 1
    (by decide)

/-- Claim C7, as stated, is false: in the reachable state `dupDb`, where two
items carry id 2, deleting id 2 twice succeeds both times — the second
delete removes the second item carrying the reused id instead of failing
with 404. -/
theorem C7_counterexample :
    ¬ (∀ db : ItemsDb, Reachable db → ∀ i : Int, (∃ x ∈ db, x.id = i) →
        ∃ msg db2, delete_item db i = Except.ok (msg, db2) ∧
          delete_item db2 i = Except.error itemNotFound) := by
  intro h
  obtain ⟨msg, db2, hdel, hdel2⟩ :=
    h dupDb ⟨dupOps, rfl⟩ 2 ⟨Item.ofFields 2 sampleB, by decide, by decide⟩
  have hfst : delete_item dupDb 2 =
      Except.ok ("Item 2 deleted successfully", [Item.ofFields 2 sampleC]) := by
    decide
  rw [hfst] at hdel
  obtain ⟨hm, hd⟩ := Prod.mk.injEq .. ▸ Except.ok.inj hdel
  subst hd
  exact absurd hdel2 (by decide)

/-- Claim C7 (amended): for every registry state in which exactly one item
carries id `i`, the first `delete_item i` succeeds and the second fails with
the 404 `itemNotFound` — delete is not silently idempotent. -/
theorem C7_delete_twice_unique (db : ItemsDb) (_hdb : Reachable db) (i : Int)
    (h : db.countP (fun x => x.id == i) = 1) :
    ∃ msg db2, delete_item db i = Except.ok (msg, db2) ∧
      delete_item db2 i = Except.error itemNotFound := by
  obtain ⟨pre, x, post, rfl, hpre, hx, hpost⟩ := unique_match_split h
  refine ⟨_, pre ++ post, delete_item_first_match pre x post i hpre hx, ?_⟩
  rw [delete_item_error_iff]
  intro y hy
  rcases List.mem_append.mp hy with hy2 | hy2
  · exact hpre y hy2
  · exact hpost y hy2

/-- Witness for C7: double delete on the one-item store `[id 1]`. -/
theorem C7_witness :
    ∃ msg db2,
      delete_item [Item.ofFields 1 sampleA] 1 = Except.ok (msg, db2) ∧
      delete_item db2 1 = Except.error itemNotFound :=
  C7_delete_twice_unique [Item.ofFields 1 sampleA]
    ⟨[Op.create sampleA], by decide⟩ 1 (by decide)

/-- Claim C8: `get_item`, `update_item` and `delete_item` fail — always with
the 404 `itemNotFound` — exactly when no item in the store carries the
requested id, and a failing call leaves the store unchanged. -/
theorem C8_error_frame (db : ItemsDb) (i : Int) (f : ItemCreate) :
    (get_item db i = Except.error itemNotFound ↔ ∀ x ∈ db, x.id ≠ i) ∧
    (update_item db i f = Except.error itemNotFound ↔ ∀ x ∈ db, x.id ≠ i) ∧
    (delete_item db i = Except.error itemNotFound ↔ ∀ x ∈ db, x.id ≠ i) ∧
    ((∀ x ∈ db, x.id ≠ i) →
      applyOp db (Op.update i f) = db ∧ applyOp db (Op.delete i) = db) := by
  refine ⟨get_item_error_iff db i, update_item_error_iff db i f,
    delete_item_error_iff db i, fun h => ⟨?_, ?_⟩⟩
  · simp [applyOp, (update_item_error_iff db i f).mpr h]
  · simp [applyOp, (delete_item_error_iff db i).mpr h]

/-- Witness for C8: id 2 is absent from the one-item store `[id 1]`. -/
theorem C8_witness :
    get_item [Item.ofFields 1 sampleA] 2 = Except.error itemNotFound ∧
    update_item [Item.ofFields 1 sampleA] 2 sampleB =
      Except.error itemNotFound ∧
    delete_item [Item.ofFields 1 sampleA] 2 = Except.error itemNotFound ∧
    applyOp [Item.ofFields 1 sampleA] (Op.update 2 sampleB) =
      [Item.ofFields 1 sampleA] ∧
    applyOp [Item.ofFields 1 sampleA] (Op.delete 2) =
      [Item.ofFields 1 sampleA] := by
  have h := C8_error_frame [Item.ofFields 1 sampleA] 2 sampleB
  have hno : ∀ x ∈ [Item.ofFields 1 sampleA], x.id ≠ 2 := by decide
  exact ⟨h.1.mpr hno, h.2.1.mpr hno, h.2.2.1.mpr hno, (h.2.2.2 hno).1,
    (h.2.2.2 hno).2⟩

/-- Claim C9: on a store `pre ++ x :: post` whose first id match is `x`,
each of the three scans operates on `x` alone: `get_item` returns `x`,
`update_item` replaces `x` at its position, and `delete_item` removes `x` —
the tail `post`, which may itself contain items with the same id, is kept
verbatim. -/
theorem C9_first_match_semantics (pre : ItemsDb) (x : Item) (post : ItemsDb)
    (i : Int) (f : ItemCreate) (hpre : ∀ y ∈ pre, y.id ≠ i) (hx : x.id = i) :
    get_item (pre ++ x :: post) i = Except.ok x ∧
    update_item (pre ++ x :: post) i f =
      Except.ok (Item.ofFields i f, pre ++ Item.ofFields i f :: post) ∧
    delete_item (pre ++ x :: post) i =
      Except.ok (s!"Item {i} deleted successfully", pre ++ post) :=
  ⟨get_item_first_match pre x post i hpre hx,
   update_item_first_match pre x post i f hpre hx,
   delete_item_first_match pre x post i hpre hx⟩

/-- Witness for C9: a store with a duplicated id 2; the second copy is left
untouched by all three scans. -/
theorem C9_witness :
    get_item ([] ++ Item.ofFields 2 sampleB :: [Item.ofFields 2 sampleC]) 2 =
      Except.ok (Item.ofFields 2 sampleB) ∧
    update_item ([] ++ Item.ofFields 2 sampleB :: [Item.ofFields 2 sampleC]) 2
        sampleA =
      Except.ok (Item.ofFields 2 sampleA,
        [] ++ Item.ofFields 2 sampleA :: [Item.ofFields 2 sampleC]) ∧
    delete_item ([] ++ Item.ofFields 2 sampleB :: [Item.ofFields 2 sampleC]) 2 =
      Except.ok (s!"Item {(2 : Int)} deleted successfully",
        [] ++ [Item.ofFields 2 sampleC]) :=
  C9_first_match_semantics [] (Item.ofFields 2 sampleB) [Item.ofFields 2 sampleC]
    2 sampleA (by decide) (by decide)

/-- The element sitting at the first-match position of a split store. -/
theorem get_elem_at_split (pre : List Item) (x : Item) (post : List Item) :
    (pre ++ x :: post).get? pre.length = some x := by
  induction pre with
  | nil => rfl
  | cons a pre ih => exact ih

/-- Writing one position leaves every other position unchanged. -/
theorem get_set_of_ne (l : List Item) (k j : Nat) (u : Item) (h : j ≠ k) :
    (l.set k u).get? j = l.get? j := by
  induction l generalizing k j with
  | nil => rfl
  | cons a l ih =>
    cases k with
    | zero =>
      cases j with
      | zero => exact absurd rfl h
      | succ j => rfl
    | succ k =>
      cases j with
      | zero => rfl
      | succ j => exact ih k j fun hh => h (congrArg Nat.succ hh)

/-- Claim C10: a successful `update_item` only rewrites the matched
position: the store keeps its length, the result is `db.set k u` at the
match position `k` (whose occupant carried id `i`), and every other position
holds exactly the item it held before — order included. -/
theorem C10_update_frame (db : ItemsDb) (i : Int) (f : ItemCreate) (u : Item)
    (db2 : ItemsDb) (h : update_item db i f = Except.ok (u, db2)) :
    db2.length = db.length ∧
    ∃ k, db2 = db.set k u ∧ k < db.length ∧
      (∃ x, db.get? k = some x ∧ x.id = i) ∧
      ∀ j, j ≠ k → db2.get? j = db.get? j := by
  obtain ⟨hu, pre, x, post, rfl, hpre, hx, rfl⟩ := update_item_ok_shape h
  refine ⟨by simp, pre.length, (set_at_first_match pre x u post).symm, by simp,
    ⟨x, get_elem_at_split pre x post, hx⟩, ?_⟩
  intro j hj
  rw [← set_at_first_match pre x u post]
  exact get_set_of_ne (pre ++ x :: post) pre.length j u hj

/-- Witness for C10: updating the one-item store `[id 1]`. -/
theorem C10_witness :
    List.length [Item.ofFields 1 sampleB] =
      List.length [Item.ofFields 1 sampleA] ∧
    ∃ k, [Item.ofFields 1 sampleB] =
        [Item.ofFields 1 sampleA].set k (Item.ofFields 1 sampleB) ∧
      k < List.length [Item.ofFields 1 sampleA] ∧
      (∃ x, [Item.ofFields 1 sampleA].get? k = some x ∧ x.id = 1) ∧
      ∀ j, j ≠ k →
        [Item.ofFields 1 sampleB].get? j = [Item.ofFields 1 sampleA].get? j :=
  C10_update_frame [Item.ofFields 1 sampleA] 1 sampleB (Item.ofFields 1 sampleB)
    [Item.ofFields 1 sampleB] (by decide)

end ECSTemplate
